import Mathlib

/-!
Verification of the SpeckEx native core (`src/native/speck_ex/src/lib.rs`).

The Rust source is a thin wrapper: the Speck block cipher, the big-endian
CTR construction, Poly1305 and the constant-time comparison are pulled in
from external crates (`speck_cipher`, `ctr`, `poly1305`, `subtle`).  Those
algorithms are modelled here from the specification's own description
(round function, key schedule, counter semantics, MAC layout, bitwise-OR
accumulation); the glue that *is* in the repository — `init`, `encrypt`,
`decrypt`, `ctr_crypt_std`, `compute_poly1305_tag`,
`speck_poly1305_encrypt_impl`, `speck_poly1305_decrypt_impl` — is
translated statement by statement from the source, including the fact that
`GenericArray::from_slice` / `from_mut_slice` panic on a length mismatch.

Bytes are `Nat` values (< 256 where it matters), buffers are `List Nat`,
machine words are `Nat` reduced mod `2 ^ w` explicitly.
-/

namespace SpeckEx

/-- A buffer whose entries are genuine bytes. -/
def IsBytes (l : List Nat) : Prop := ∀ b ∈ l, b < 256

instance (l : List Nat) : Decidable (IsBytes l) := by
  unfold IsBytes; infer_instance

/-! ### Word arithmetic (w-bit words as `Nat` with explicit masking) -/

/-- Rotate a `w`-bit word left by `r` bits (`r ≤ w`): the low `w - r` bits
move up, the high `r` bits move down. -/
def rotl (w r v : Nat) : Nat := (v % 2 ^ (w - r)) * 2 ^ r + v / 2 ^ (w - r)

/-- Rotate a `w`-bit word right by `r` bits (`r ≤ w`). -/
def rotr (w r v : Nat) : Nat := (v % 2 ^ r) * 2 ^ (w - r) + v / 2 ^ r

/-- Wrapping addition of `w`-bit words. -/
def wadd (w a b : Nat) : Nat := (a + b) % 2 ^ w

/-- Wrapping subtraction of `w`-bit words. -/
def wsub (w a b : Nat) : Nat := (a + (2 ^ w - b % 2 ^ w)) % 2 ^ w

/-! ### Speck core.

Modelled from the spec: the `speck_cipher` crate is not in `src/`; §4.1
gives the round function, its inverse and the key schedule verbatim.
State is the pair `(x, y)` of `w`-bit words. -/

/-- Modelled from the spec: one Speck encryption round,
`x' = ((x rotate-right α) + y) xor roundKey`; `y' = (y rotate-left β) xor x'`. -/
def encRound (w a b k : Nat) (st : Nat × Nat) : Nat × Nat :=
  let x2 := wadd w (rotr w a st.1) st.2 ^^^ k
  (x2, rotl w b st.2 ^^^ x2)

/-- Modelled from the spec: the inverse round,
`y' = (y xor x) rotate-right β`; `x' = ((x xor roundKey) - y') rotate-left α`. -/
def decRound (w a b k : Nat) (st : Nat × Nat) : Nat × Nat :=
  let y2 := rotr w b (st.2 ^^^ st.1)
  (rotl w a (wsub w (st.1 ^^^ k) y2), y2)

/-- Encryption: apply the rounds left to right over the round keys. -/
def encBlock (w a b : Nat) (ks : List Nat) (st : Nat × Nat) : Nat × Nat :=
  ks.foldl (fun st k => encRound w a b k st) st

/-- Decryption: apply the inverse rounds in reverse round order. -/
def decBlock (w a b : Nat) (ks : List Nat) (st : Nat × Nat) : Nat × Nat :=
  match ks with
  | [] => st
  | k :: rest => decRound w a b k (decBlock w a b rest st)

/-- Modelled from the spec: the key schedule is the round function run over
the key words with the round index as round key, seeded by `(y, k_{m-1..1})`.
`t` is the number of rounds still to produce, `i` the round index, `ls` the
rotating `ℓ` words and `k` the next round key to emit. -/
def keyScheduleAux (w a b : Nat) : Nat → Nat → List Nat → Nat → List Nat
  | 0, _, _, _ => []
  | t + 1, i, ls, k =>
    k :: match ls with
      | [] => []
      | l :: rest =>
        let st := encRound w a b i (l, k)
        keyScheduleAux w a b t (i + 1) (rest ++ [st.1]) st.2

/-! ### Bytes and words -/

/-- `n` little-endian bytes of `v` (truncating `v` mod `256 ^ n`). -/
def leBytes : Nat → Nat → List Nat
  | 0, _ => []
  | n + 1, v => v % 256 :: leBytes n (v / 256)

/-- Value of a little-endian byte string. -/
def leNum (bs : List Nat) : Nat := bs.foldr (fun u acc => acc * 256 + u) 0

/-- `n` big-endian bytes of `v`. -/
def beBytes (n v : Nat) : List Nat := (leBytes n v).reverse

/-- Value of a big-endian byte string. -/
def beNum (bs : List Nat) : Nat := bs.foldl (fun acc u => acc * 256 + u) 0

/-- Split a byte string into `m` little-endian words of `wb` bytes each. -/
def toWordsAux (wb : Nat) : Nat → List Nat → List Nat
  | 0, _ => []
  | m + 1, bs => leNum (bs.take wb) :: toWordsAux wb m (bs.drop wb)

/-- A block of `2 * wb` bytes as the Speck state `(x, y)`: `y` is the first
word, `x` the second (the round-trip results are independent of this
packing choice, which the spec leaves open). -/
def bytesToBlock (wb : Nat) (bs : List Nat) : Nat × Nat :=
  (leNum ((bs.drop wb).take wb), leNum (bs.take wb))

/-- Inverse packing of `bytesToBlock`. -/
def blockToBytes (wb : Nat) (st : Nat × Nat) : List Nat :=
  leBytes wb st.2 ++ leBytes wb st.1

/-! ### The ten variants -/

/-- A Speck variant: word size in bytes, rotation amounts, key words,
rounds.  All parameters are the static constants of §3. -/
structure Variant where
  wb : Nat
  a : Nat
  b : Nat
  m : Nat
  rounds : Nat
deriving DecidableEq, Repr

/-- Word size in bits. -/
def Variant.w (v : Variant) : Nat := 8 * v.wb

/-- Block size in bytes (two words). -/
def Variant.blockSize (v : Variant) : Nat := 2 * v.wb

/-- Key size in bytes (`m` words). -/
def Variant.keySize (v : Variant) : Nat := v.m * v.wb

def speck32_64 : Variant := ⟨2, 7, 2, 4, 22⟩
def speck48_72 : Variant := ⟨3, 8, 3, 3, 22⟩
def speck48_96 : Variant := ⟨3, 8, 3, 4, 23⟩
def speck64_96 : Variant := ⟨4, 8, 3, 3, 26⟩
def speck64_128 : Variant := ⟨4, 8, 3, 4, 27⟩
def speck96_96 : Variant := ⟨6, 8, 3, 2, 28⟩
def speck96_144 : Variant := ⟨6, 8, 3, 3, 29⟩
def speck128_128 : Variant := ⟨8, 8, 3, 2, 32⟩
def speck128_192 : Variant := ⟨8, 8, 3, 3, 33⟩
def speck128_256 : Variant := ⟨8, 8, 3, 4, 34⟩

/-- The ten supported block-cipher variants. -/
def speckVariants : List Variant :=
  [speck32_64, speck48_72, speck48_96, speck64_96, speck64_128,
   speck96_96, speck96_144, speck128_128, speck128_192, speck128_256]

/-- Derive the round-key schedule from the raw key bytes. -/
def speckInit (v : Variant) (key : List Nat) : List Nat :=
  let ws := toWordsAux v.wb v.m key
  keyScheduleAux v.w v.a v.b v.rounds 0 ws.tail (ws.headD 0)

/-- Single-block encryption on bytes. -/
def speckEncryptBlock (v : Variant) (ks : List Nat) (bs : List Nat) : List Nat :=
  blockToBytes v.wb (encBlock v.w v.a v.b ks (bytesToBlock v.wb bs))

/-- Single-block decryption on bytes. -/
def speckDecryptBlock (v : Variant) (ks : List Nat) (bs : List Nat) : List Nat :=
  blockToBytes v.wb (decBlock v.w v.a v.b ks (bytesToBlock v.wb bs))

/-! ### The source-level call surface -/

/-- Runtime outcomes of a native call.  `badArg` is rustler's
`Error::BadArg`; `allocationFailed` and `authenticationFailed` stand for
the atoms of the same names; `panicked` marks a call that panics inside
`GenericArray::from_slice` / `from_mut_slice` on a length mismatch (a
crash, not a typed error value). -/
inductive RtError where
  | badArg
  | allocationFailed
  | authenticationFailed
  | panicked
deriving DecidableEq, Repr

/-- `init` (lib.rs:14): `T::new_from_slice` checks the key length and the
result is mapped to `Error::BadArg`; on success the instance holds the
derived schedule. -/
def init (v : Variant) (key : List Nat) : Except RtError (List Nat) :=
  if key.length = v.keySize then .ok (speckInit v key) else .error .badArg

/-- `encrypt` (lib.rs:20): the data is copied and handed to
`GenericArray::from_mut_slice`, which panics unless the length equals the
variant's block size; then `encrypt_block` runs in place. -/
def encrypt (v : Variant) (ks : List Nat) (data : List Nat) :
    Except RtError (List Nat) :=
  if data.length = v.blockSize then .ok (speckEncryptBlock v ks data)
  else .error .panicked

/-- `decrypt` (lib.rs:32): same shape as `encrypt`. -/
def decrypt (v : Variant) (ks : List Nat) (data : List Nat) :
    Except RtError (List Nat) :=
  if data.length = v.blockSize then .ok (speckDecryptBlock v ks data)
  else .error .panicked

/-! ### Word-arithmetic lemmas -/

theorem xor_xor_cancel (a k : Nat) : a ^^^ k ^^^ k = a := by
  rw [Nat.xor_assoc, Nat.xor_self, Nat.xor_zero]

theorem pow_split (w r : Nat) (hr : r ≤ w) : 2 ^ (w - r) * 2 ^ r = 2 ^ w := by
  rw [← pow_add]
  congr 1
  omega

theorem rotl_lt {w r v : Nat} (hr : r ≤ w) (hv : v < 2 ^ w) : rotl w r v < 2 ^ w := by
  unfold rotl
  have hA : 0 < 2 ^ (w - r) := Nat.pos_pow_of_pos _ (by norm_num)
  have hAB : 2 ^ (w - r) * 2 ^ r = 2 ^ w := pow_split w r hr
  have h1 : v % 2 ^ (w - r) < 2 ^ (w - r) := Nat.mod_lt _ hA
  have h2 : v / 2 ^ (w - r) < 2 ^ r := by
    apply (Nat.div_lt_iff_lt_mul hA).mpr
    rw [Nat.mul_comm, hAB]; exact hv
  calc (v % 2 ^ (w - r)) * 2 ^ r + v / 2 ^ (w - r)
      < (v % 2 ^ (w - r)) * 2 ^ r + 2 ^ r := by omega
    _ = (v % 2 ^ (w - r) + 1) * 2 ^ r := by ring
    _ ≤ 2 ^ (w - r) * 2 ^ r := Nat.mul_le_mul_right _ (by omega)
    _ = 2 ^ w := hAB

theorem rotr_lt {w r v : Nat} (hr : r ≤ w) (hv : v < 2 ^ w) : rotr w r v < 2 ^ w := by
  unfold rotr
  have hB : 0 < 2 ^ r := Nat.pos_pow_of_pos _ (by norm_num)
  have hAB : 2 ^ (w - r) * 2 ^ r = 2 ^ w := pow_split w r hr
  have h1 : v % 2 ^ r < 2 ^ r := Nat.mod_lt _ hB
  have h2 : v / 2 ^ r < 2 ^ (w - r) := by
    apply (Nat.div_lt_iff_lt_mul hB).mpr
    rw [hAB]; exact hv
  calc (v % 2 ^ r) * 2 ^ (w - r) + v / 2 ^ r
      < (v % 2 ^ r) * 2 ^ (w - r) + 2 ^ (w - r) := by omega
    _ = (v % 2 ^ r + 1) * 2 ^ (w - r) := by ring
    _ ≤ 2 ^ r * 2 ^ (w - r) := Nat.mul_le_mul_right _ (by omega)
    _ = 2 ^ w := by rw [Nat.mul_comm]; exact hAB

theorem rotr_rotl {w r v : Nat} (hr : r ≤ w) (hv : v < 2 ^ w) :
    rotr w r (rotl w r v) = v := by
  unfold rotl rotr
  have hA : 0 < 2 ^ (w - r) := Nat.pos_pow_of_pos _ (by norm_num)
  have hB : 0 < 2 ^ r := Nat.pos_pow_of_pos _ (by norm_num)
  have hAB : 2 ^ (w - r) * 2 ^ r = 2 ^ w := pow_split w r hr
  have hh : v / 2 ^ (w - r) < 2 ^ r := by
    apply (Nat.div_lt_iff_lt_mul hA).mpr
    rw [Nat.mul_comm, hAB]; exact hv
  have e1 : ((v % 2 ^ (w - r)) * 2 ^ r + v / 2 ^ (w - r)) % 2 ^ r
      = v / 2 ^ (w - r) := by
    rw [Nat.mul_comm (v % 2 ^ (w - r)), Nat.mul_add_mod]
    exact Nat.mod_eq_of_lt hh
  have e2 : ((v % 2 ^ (w - r)) * 2 ^ r + v / 2 ^ (w - r)) / 2 ^ r
      = v % 2 ^ (w - r) := by
    rw [Nat.mul_comm (v % 2 ^ (w - r)), Nat.mul_add_div hB]
    rw [Nat.div_eq_of_lt hh, Nat.add_zero]
  rw [e1, e2, Nat.mul_comm, Nat.div_add_mod]

theorem rotl_rotr {w r v : Nat} (hr : r ≤ w) (hv : v < 2 ^ w) :
    rotl w r (rotr w r v) = v := by
  unfold rotl rotr
  have hA : 0 < 2 ^ (w - r) := Nat.pos_pow_of_pos _ (by norm_num)
  have hB : 0 < 2 ^ r := Nat.pos_pow_of_pos _ (by norm_num)
  have hAB : 2 ^ (w - r) * 2 ^ r = 2 ^ w := pow_split w r hr
  have hh : v / 2 ^ r < 2 ^ (w - r) := by
    apply (Nat.div_lt_iff_lt_mul hB).mpr
    rw [hAB]; exact hv
  have e1 : ((v % 2 ^ r) * 2 ^ (w - r) + v / 2 ^ r) % 2 ^ (w - r)
      = v / 2 ^ r := by
    rw [Nat.mul_comm (v % 2 ^ r), Nat.mul_add_mod]
    exact Nat.mod_eq_of_lt hh
  have e2 : ((v % 2 ^ r) * 2 ^ (w - r) + v / 2 ^ r) / 2 ^ (w - r)
      = v % 2 ^ r := by
    rw [Nat.mul_comm (v % 2 ^ r), Nat.mul_add_div hA]
    rw [Nat.div_eq_of_lt hh, Nat.add_zero]
  rw [e1, e2, Nat.mul_comm, Nat.div_add_mod]

theorem wsub_wadd {w c y : Nat} (hc : c < 2 ^ w) (hy : y < 2 ^ w) :
    wsub w (wadd w c y) y = c := by
  unfold wadd wsub
  rw [Nat.mod_eq_of_lt hy, Nat.mod_add_mod]
  have h1 : c + y + (2 ^ w - y) = c + 2 ^ w := by omega
  rw [h1, Nat.add_mod_right, Nat.mod_eq_of_lt hc]

theorem encRound_fst_lt {w a b k : Nat} (st : Nat × Nat) (ha : a ≤ w)
    (hx : st.1 < 2 ^ w) (hk : k < 2 ^ w) : (encRound w a b k st).1 < 2 ^ w := by
  unfold encRound wadd
  exact Nat.xor_lt_two_pow (Nat.mod_lt _ (Nat.pos_pow_of_pos _ (by norm_num))) hk

theorem encRound_snd_lt {w a b k : Nat} (st : Nat × Nat) (ha : a ≤ w) (hb : b ≤ w)
    (hx : st.1 < 2 ^ w) (hy : st.2 < 2 ^ w) (hk : k < 2 ^ w) :
    (encRound w a b k st).2 < 2 ^ w := by
  have h1 := encRound_fst_lt (w := w) (a := a) (b := b) (k := k) st ha hx hk
  unfold encRound at h1 ⊢
  exact Nat.xor_lt_two_pow (rotl_lt hb hy) h1

theorem decRound_encRound {w a b k : Nat} (st : Nat × Nat) (ha : a ≤ w) (hb : b ≤ w)
    (hx : st.1 < 2 ^ w) (hy : st.2 < 2 ^ w) (hk : k < 2 ^ w) :
    decRound w a b k (encRound w a b k st) = st := by
  obtain ⟨x, y⟩ := st
  simp only [encRound, decRound, xor_xor_cancel]
  rw [rotr_rotl hb hy, wsub_wadd (rotr_lt ha hx) hy, rotl_rotr ha hx]

theorem decBlock_encBlock {w a b : Nat} (ks : List Nat) (st : Nat × Nat)
    (ha : a ≤ w) (hb : b ≤ w) (hks : ∀ k ∈ ks, k < 2 ^ w)
    (hx : st.1 < 2 ^ w) (hy : st.2 < 2 ^ w) :
    decBlock w a b ks (encBlock w a b ks st) = st := by
  induction ks generalizing st with
  | nil => rfl
  | cons k rest ih =>
    have hk : k < 2 ^ w := hks k (List.mem_cons_self k rest)
    have hrest : ∀ q ∈ rest, q < 2 ^ w := fun q hq => hks q (List.mem_cons_of_mem k hq)
    have e1 : encBlock w a b (k :: rest) st = encBlock w a b rest (encRound w a b k st) := rfl
    have e2 : decBlock w a b (k :: rest) (encBlock w a b rest (encRound w a b k st))
        = decRound w a b k (decBlock w a b rest (encBlock w a b rest (encRound w a b k st))) := rfl
    rw [e1, e2, ih _ hrest (encRound_fst_lt st ha hx hk) (encRound_snd_lt st ha hb hx hy hk)]
    exact decRound_encRound st ha hb hx hy hk

theorem encBlock_fst_lt {w a b : Nat} (ks : List Nat) (st : Nat × Nat)
    (ha : a ≤ w) (hb : b ≤ w) (hks : ∀ k ∈ ks, k < 2 ^ w)
    (hx : st.1 < 2 ^ w) (hy : st.2 < 2 ^ w) :
    (encBlock w a b ks st).1 < 2 ^ w ∧ (encBlock w a b ks st).2 < 2 ^ w := by
  induction ks generalizing st with
  | nil => exact ⟨hx, hy⟩
  | cons k rest ih =>
    have hk : k < 2 ^ w := hks k (List.mem_cons_self k rest)
    have hrest : ∀ q ∈ rest, q < 2 ^ w := fun q hq => hks q (List.mem_cons_of_mem k hq)
    exact ih (encRound w a b k st) hrest (encRound_fst_lt st ha hx hk)
      (encRound_snd_lt st ha hb hx hy hk)

theorem keyScheduleAux_lt {w a b : Nat} (ha : a ≤ w) (hb : b ≤ w) :
    ∀ (t i : Nat) (ls : List Nat) (k : Nat), (∀ l ∈ ls, l < 2 ^ w) → k < 2 ^ w →
    i + t ≤ 2 ^ w → ∀ q ∈ keyScheduleAux w a b t i ls k, q < 2 ^ w := by
  intro t
  induction t with
  | zero => intro i ls k _ _ _ q hq; simp [keyScheduleAux] at hq
  | succ t ih =>
    intro i ls k hls hk hi q hq
    match ls with
    | [] =>
      simp only [keyScheduleAux, List.mem_singleton] at hq
      rw [hq]; exact hk
    | l :: rest =>
      simp only [keyScheduleAux, List.mem_cons] at hq
      rcases hq with hq | hq
      · rw [hq]; exact hk
      · have hl : l < 2 ^ w := hls l (List.mem_cons_self l rest)
        have hrest : ∀ x ∈ rest, x < 2 ^ w := fun x hx => hls x (List.mem_cons_of_mem l hx)
        have hiw : i < 2 ^ w := by omega
        refine ih (i + 1) _ _ ?_ ?_ (by omega) q hq
        · intro x hx
          rcases List.mem_append.mp hx with hx | hx
          · exact hrest x hx
          · rw [List.mem_singleton.mp hx]
            exact encRound_fst_lt (l, k) ha hl hiw
        · exact encRound_snd_lt (l, k) ha hb hl hk hiw

/-! ### Byte-conversion lemmas -/

theorem leBytes_length (n v : Nat) : (leBytes n v).length = n := by
  induction n generalizing v with
  | zero => rfl
  | succ n ih => simp [leBytes, ih]

theorem leBytes_isBytes (n v : Nat) : IsBytes (leBytes n v) := by
  induction n generalizing v with
  | zero => intro x hx; simp [leBytes] at hx
  | succ n ih =>
    intro x hx
    simp only [leBytes, List.mem_cons] at hx
    rcases hx with hx | hx
    · rw [hx]; exact Nat.mod_lt _ (by norm_num)
    · exact ih _ x hx

theorem leNum_lt {bs : List Nat} (h : IsBytes bs) : leNum bs < 256 ^ bs.length := by
  induction bs with
  | nil => simp [leNum]
  | cons u rest ih =>
    have hu : u < 256 := h u (List.mem_cons_self u rest)
    have hrest : IsBytes rest := fun x hx => h x (List.mem_cons_of_mem u hx)
    have h1 : leNum rest < 256 ^ rest.length := ih hrest
    have e : leNum (u :: rest) = leNum rest * 256 + u := rfl
    rw [e]
    calc leNum rest * 256 + u < leNum rest * 256 + 256 := by omega
      _ = (leNum rest + 1) * 256 := by ring
      _ ≤ 256 ^ rest.length * 256 := Nat.mul_le_mul_right _ (by omega)
      _ = 256 ^ (u :: rest).length := by rw [List.length_cons, pow_succ]

theorem leNum_leBytes {n v : Nat} (hv : v < 256 ^ n) : leNum (leBytes n v) = v := by
  induction n generalizing v with
  | zero =>
    have : v = 0 := by simpa using hv
    simp [this, leBytes, leNum]
  | succ n ih =>
    have hd : v / 256 < 256 ^ n := by
      apply (Nat.div_lt_iff_lt_mul (by norm_num)).mpr
      calc v < 256 ^ (n + 1) := hv
        _ = 256 ^ n * 256 := by rw [pow_succ]
    have e : leNum (v % 256 :: leBytes n (v / 256))
        = leNum (leBytes n (v / 256)) * 256 + v % 256 := rfl
    rw [leBytes, e, ih hd, Nat.mul_comm (v / 256) 256, Nat.div_add_mod]

theorem leBytes_leNum {bs : List Nat} {n : Nat} (hl : bs.length = n) (hb : IsBytes bs) :
    leBytes n (leNum bs) = bs := by
  induction bs generalizing n with
  | nil => rw [← hl]; rfl
  | cons u rest ih =>
    have hu : u < 256 := hb u (List.mem_cons_self u rest)
    have hrest : IsBytes rest := fun x hx => hb x (List.mem_cons_of_mem u hx)
    subst hl
    have e : leNum (u :: rest) = leNum rest * 256 + u := rfl
    have e1 : (leNum rest * 256 + u) % 256 = u := by
      rw [Nat.mul_comm, Nat.mul_add_mod, Nat.mod_eq_of_lt hu]
    have e2 : (leNum rest * 256 + u) / 256 = leNum rest := by
      rw [Nat.mul_comm, Nat.mul_add_div (by norm_num), Nat.div_eq_of_lt hu, Nat.add_zero]
    simp only [List.length_cons, leBytes, e, e1, e2]
    rw [ih rfl hrest]

theorem pow_256 (wb : Nat) : (2 : Nat) ^ (8 * wb) = 256 ^ wb := by
  rw [pow_mul]; norm_num

theorem blockToBytes_bytesToBlock {wb : Nat} {bs : List Nat}
    (hl : bs.length = 2 * wb) (hb : IsBytes bs) :
    blockToBytes wb (bytesToBlock wb bs) = bs := by
  unfold blockToBytes bytesToBlock
  have ht : (bs.take wb).length = wb := by
    rw [List.length_take]; omega
  have hd : ((bs.drop wb).take wb).length = wb := by
    rw [List.length_take, List.length_drop]; omega
  have hbt : IsBytes (bs.take wb) := fun x hx => hb x (List.take_subset _ _ hx)
  have hbd : IsBytes ((bs.drop wb).take wb) := fun x hx =>
    hb x (List.drop_subset _ _ (List.take_subset _ _ hx))
  simp only [leBytes_leNum ht hbt, leBytes_leNum hd hbd]
  have : (bs.drop wb).take wb = bs.drop wb := by
    apply List.take_of_length_le
    rw [List.length_drop]; omega
  rw [this, List.take_append_drop]

theorem bytesToBlock_blockToBytes {wb x y : Nat}
    (hx : x < 2 ^ (8 * wb)) (hy : y < 2 ^ (8 * wb)) :
    bytesToBlock wb (blockToBytes wb (x, y)) = (x, y) := by
  unfold blockToBytes bytesToBlock
  have hly : (leBytes wb y).length = wb := leBytes_length wb y
  have e1 : (leBytes wb y ++ leBytes wb x).take wb = leBytes wb y := List.take_left' hly
  have e2 : (leBytes wb y ++ leBytes wb x).drop wb = leBytes wb x := List.drop_left' hly
  rw [e1, e2]
  have e3 : (leBytes wb x).take wb = leBytes wb x := by
    apply List.take_of_length_le
    rw [leBytes_length]
  rw [e3, leNum_leBytes (by rw [← pow_256]; exact hx),
    leNum_leBytes (by rw [← pow_256]; exact hy)]

/-! ### Speck round-trip (claim C3) -/

/-- Static well-formedness of a variant's parameters: rotation amounts fit
the word, and the round count (hence every round index used by the key
schedule) fits in one word. -/
def goodVariant (v : Variant) : Prop :=
  v.a ≤ v.w ∧ v.b ≤ v.w ∧ v.rounds ≤ 2 ^ v.w ∧ 0 < v.wb

instance (v : Variant) : Decidable (goodVariant v) := by
  unfold goodVariant; infer_instance

theorem toWordsAux_lt {wb : Nat} :
    ∀ (m : Nat) (bs : List Nat), IsBytes bs →
    ∀ q ∈ toWordsAux wb m bs, q < 2 ^ (8 * wb) := by
  intro m
  induction m with
  | zero => intro bs _ q hq; simp [toWordsAux] at hq
  | succ m ih =>
    intro bs hb q hq
    simp only [toWordsAux, List.mem_cons] at hq
    rcases hq with hq | hq
    · rw [hq, pow_256]
      calc leNum (bs.take wb) < 256 ^ (bs.take wb).length :=
            leNum_lt (fun x hx => hb x (List.take_subset _ _ hx))
        _ ≤ 256 ^ wb := Nat.pow_le_pow_right (by norm_num) (by rw [List.length_take]; omega)
    · exact ih (bs.drop wb) (fun x hx => hb x (List.drop_subset _ _ hx)) q hq

theorem speckInit_lt {v : Variant} (hg : goodVariant v) {key : List Nat}
    (hb : IsBytes key) : ∀ q ∈ speckInit v key, q < 2 ^ v.w := by
  obtain ⟨ha, hb2, ht, _⟩ := hg
  unfold speckInit
  have hws : ∀ q ∈ toWordsAux v.wb v.m key, q < 2 ^ v.w := toWordsAux_lt v.m key hb
  apply keyScheduleAux_lt ha hb2
  · intro l hl
    exact hws l (List.tail_subset _ hl)
  · match hws2 : toWordsAux v.wb v.m key with
    | [] =>
      show (0 : Nat) < 2 ^ v.w
      exact Nat.pos_pow_of_pos _ (by norm_num)
    | q :: rest =>
      simp only [List.headD]
      exact hws q (by rw [hws2]; exact List.mem_cons_self q rest)
  · omega

theorem speckEncryptBlock_length (v : Variant) (ks bs : List Nat) :
    (speckEncryptBlock v ks bs).length = v.blockSize := by
  unfold speckEncryptBlock blockToBytes Variant.blockSize
  rw [List.length_append, leBytes_length, leBytes_length]
  omega

theorem speckEncryptBlock_isBytes (v : Variant) (ks bs : List Nat) :
    IsBytes (speckEncryptBlock v ks bs) := by
  unfold speckEncryptBlock blockToBytes
  intro x hx
  rcases List.mem_append.mp hx with h | h
  · exact leBytes_isBytes _ _ x h
  · exact leBytes_isBytes _ _ x h

theorem speck_block_roundtrip {v : Variant} (hg : goodVariant v)
    {ks bs : List Nat} (hks : ∀ k ∈ ks, k < 2 ^ v.w)
    (hl : bs.length = v.blockSize) (hb : IsBytes bs) :
    speckDecryptBlock v ks (speckEncryptBlock v ks bs) = bs := by
  obtain ⟨ha, hb2, _, hwb⟩ := hg
  have hbs : bs.length = 2 * v.wb := hl
  have hx : (bytesToBlock v.wb bs).1 < 2 ^ v.w := by
    unfold bytesToBlock
    show leNum ((bs.drop v.wb).take v.wb) < 2 ^ v.w
    rw [Variant.w, pow_256]
    calc leNum ((bs.drop v.wb).take v.wb) < 256 ^ ((bs.drop v.wb).take v.wb).length :=
          leNum_lt (fun x hx => hb x (List.drop_subset _ _ (List.take_subset _ _ hx)))
      _ ≤ 256 ^ v.wb := Nat.pow_le_pow_right (by norm_num) (by rw [List.length_take]; omega)
  have hy : (bytesToBlock v.wb bs).2 < 2 ^ v.w := by
    unfold bytesToBlock
    show leNum (bs.take v.wb) < 2 ^ v.w
    rw [Variant.w, pow_256]
    calc leNum (bs.take v.wb) < 256 ^ (bs.take v.wb).length :=
          leNum_lt (fun x hx => hb x (List.take_subset _ _ hx))
      _ ≤ 256 ^ v.wb := Nat.pow_le_pow_right (by norm_num) (by rw [List.length_take]; omega)
  have henc := encBlock_fst_lt (w := v.w) (a := v.a) (b := v.b) ks (bytesToBlock v.wb bs)
    ha hb2 hks hx hy
  unfold speckDecryptBlock speckEncryptBlock
  have e1 : bytesToBlock v.wb (blockToBytes v.wb (encBlock v.w v.a v.b ks (bytesToBlock v.wb bs)))
      = encBlock v.w v.a v.b ks (bytesToBlock v.wb bs) := by
    have := @bytesToBlock_blockToBytes v.wb
      (encBlock v.w v.a v.b ks (bytesToBlock v.wb bs)).1
      (encBlock v.w v.a v.b ks (bytesToBlock v.wb bs)).2
      (by rw [← Variant.w]; exact henc.1) (by rw [← Variant.w]; exact henc.2)
    simpa using this
  rw [e1, decBlock_encBlock ks _ ha hb2 hks hx hy, blockToBytes_bytesToBlock hbs hb]

/-- Claim C3: for every one of the ten supported variants, every key of the
variant's exact key size and every block of the variant's exact block size,
`decrypt_block` applied (via an instance initialised from the same key) to
the output of `encrypt_block` returns the original block. -/
theorem c3_decrypt_encrypt_roundtrip :
    ∀ v ∈ speckVariants, ∀ key block : List Nat,
    IsBytes key → key.length = v.keySize →
    IsBytes block → block.length = v.blockSize →
    ∃ ks, init v key = Except.ok ks ∧
      (encrypt v ks block).bind (decrypt v ks) = Except.ok block := by
  intro v hv key block hkb hkl hbb hbl
  have hg : goodVariant v := by
    have hall : ∀ u ∈ speckVariants, goodVariant u := by decide
    exact hall v hv
  refine ⟨speckInit v key, ?_, ?_⟩
  · unfold init
    rw [if_pos hkl]
  · unfold encrypt
    rw [if_pos hbl]
    show decrypt v (speckInit v key) (speckEncryptBlock v (speckInit v key) block)
      = Except.ok block
    unfold decrypt
    rw [if_pos (speckEncryptBlock_length v _ block)]
    rw [speck_block_roundtrip hg (speckInit_lt hg hkb) hbl hbb]

/-- Witness for C3 at the Speck128/256 variant with a concrete key and block. -/
theorem c3_witness :
    ∃ ks, init speck128_256 (List.replicate 32 7) = Except.ok ks ∧
      (encrypt speck128_256 ks ((List.range 16).map (fun i => i + 100))).bind
        (decrypt speck128_256 ks) =
        Except.ok ((List.range 16).map (fun i => i + 100)) :=
  c3_decrypt_encrypt_roundtrip speck128_256 (by decide) _ _
    (by decide) (by decide) (by decide) (by decide)

/-! ### CTR engine.

Modelled from the spec: the `ctr` crate's `Ctr32BE`/`Ctr64BE`/`Ctr128BE`
constructions are not in `src/`; §4.2 defines them: the counter is the
nonce block read as a big-endian unsigned integer, keystream block `j` is
`encrypt_block(counter + j)`, the counter wraps modulo
`2 ^ (block-size-in-bits)`, and the cipher keeps a byte position so that
consecutive `apply_keystream` calls continue where the previous one
stopped. -/

/-- Byte `i` of the CTR keystream for block cipher `E`, block size `bs`
bytes and initial counter `n0`. -/
def ksByte (E : List Nat → List Nat) (bs n0 i : Nat) : Nat :=
  (E (beBytes bs ((n0 + i / bs) % 2 ^ (8 * bs)))).getD (i % bs) 0

/-- `apply_keystream` starting at byte position `pos`: XOR the data with
the keystream bytes `pos, pos+1, …`. -/
def applyKeystream (E : List Nat → List Nat) (bs n0 : Nat) : Nat → List Nat → List Nat
  | _, [] => []
  | pos, u :: rest => (u ^^^ ksByte E bs n0 pos) :: applyKeystream E bs n0 (pos + 1) rest

/-- The block-encryption function a CTR instance of variant `v` uses once
it has been keyed. -/
def speckE (v : Variant) (key : List Nat) : List Nat → List Nat :=
  speckEncryptBlock v (speckInit v key)

/-- The six variants for which the source instantiates CTR mode and the
AEAD (lib.rs:172-177, 313-342). -/
def ctrVariants : List Variant :=
  [speck32_64, speck64_96, speck64_128, speck128_128, speck128_192, speck128_256]

/-- `ctr_crypt_std` (lib.rs:135): `C::new(from_slice(key), from_slice(nonce))`
panics on a key or nonce length mismatch; otherwise the copied data is
XORed with the keystream from position 0. -/
def ctrCryptStd (v : Variant) (key nonce data : List Nat) : Except RtError (List Nat) :=
  if key.length = v.keySize then
    if nonce.length = v.blockSize then
      .ok (applyKeystream (speckE v key) v.blockSize (beNum nonce) 0 data)
    else .error .panicked
  else .error .panicked

theorem applyKeystream_length (E : List Nat → List Nat) (bs n0 : Nat) :
    ∀ (data : List Nat) (pos : Nat),
    (applyKeystream E bs n0 pos data).length = data.length := by
  intro data
  induction data with
  | nil => intro pos; rfl
  | cons u rest ih =>
    intro pos
    simp only [applyKeystream, List.length_cons, ih]

theorem xor_xor_xor (a b k : Nat) : (a ^^^ k) ^^^ (b ^^^ k) = a ^^^ b := by
  rw [Nat.xor_comm b k, Nat.xor_assoc a k (k ^^^ b), ← Nat.xor_assoc k k b,
    Nat.xor_self, Nat.zero_xor]

theorem applyKeystream_involutive (E : List Nat → List Nat) (bs n0 : Nat) :
    ∀ (data : List Nat) (pos : Nat),
    applyKeystream E bs n0 pos (applyKeystream E bs n0 pos data) = data := by
  intro data
  induction data with
  | nil => intro pos; rfl
  | cons u rest ih =>
    intro pos
    simp only [applyKeystream, xor_xor_cancel, ih]

theorem applyKeystream_xor (E : List Nat → List Nat) (bs n0 : Nat) :
    ∀ (d1 d2 : List Nat) (pos : Nat),
    List.zipWith (· ^^^ ·) (applyKeystream E bs n0 pos d1) (applyKeystream E bs n0 pos d2)
      = List.zipWith (· ^^^ ·) d1 d2 := by
  intro d1
  induction d1 with
  | nil => intro d2 pos; rfl
  | cons u rest ih =>
    intro d2 pos
    match d2 with
    | [] => rfl
    | u2 :: rest2 =>
      simp only [applyKeystream, List.zipWith_cons_cons, xor_xor_xor, ih]

theorem applyKeystream_getD (E : List Nat → List Nat) (bs n0 : Nat) :
    ∀ (data : List Nat) (pos i : Nat), i < data.length →
    (applyKeystream E bs n0 pos data).getD i 0
      = data.getD i 0 ^^^ ksByte E bs n0 (pos + i) := by
  intro data
  induction data with
  | nil => intro pos i hi; simp at hi
  | cons u rest ih =>
    intro pos i hi
    match i with
    | 0 => rfl
    | i + 1 =>
      have hlt : i < rest.length := by simpa using hi
      have harg : pos + 1 + i = pos + (i + 1) := by omega
      simp only [applyKeystream, List.getD_cons_succ]
      rw [ih (pos + 1) i hlt, harg]

/-- Claim C7: CTR is an involution — applying `ctr_crypt` twice with the
same key and nonce returns the original data, and each output has the same
length as its input. -/
theorem c7_ctr_symmetry :
    ∀ v ∈ ctrVariants, ∀ key nonce data : List Nat,
    key.length = v.keySize → nonce.length = v.blockSize →
    ∃ out, ctrCryptStd v key nonce data = Except.ok out ∧
      out.length = data.length ∧
      ctrCryptStd v key nonce out = Except.ok data := by
  intro v _ key nonce data hk hn
  refine ⟨applyKeystream (speckE v key) v.blockSize (beNum nonce) 0 data, ?_, ?_, ?_⟩
  · unfold ctrCryptStd
    rw [if_pos hk, if_pos hn]
  · exact applyKeystream_length _ _ _ data 0
  · unfold ctrCryptStd
    rw [if_pos hk, if_pos hn, applyKeystream_involutive]

/-- Witness for C7 at Speck64/128 with concrete inputs. -/
theorem c7_witness :
    ∃ out, ctrCryptStd speck64_128 (List.replicate 16 3) (List.replicate 8 9)
        [1, 2, 3, 4, 5, 6, 7, 8, 9, 10] = Except.ok out ∧
      out.length = 10 ∧
      ctrCryptStd speck64_128 (List.replicate 16 3) (List.replicate 8 9) out =
        Except.ok [1, 2, 3, 4, 5, 6, 7, 8, 9, 10] :=
  c7_ctr_symmetry speck64_128 (by decide) _ _ _ (by decide) (by decide)

/-- Claim C9: the CTR keystream does not depend on the data content — for
two same-length inputs under the same key and nonce, the XOR of the two
outputs equals the XOR of the two inputs.  (Determinism itself is
definitional here: the embedded `ctrCryptStd` is a pure function.) -/
theorem c9_ctr_keystream_independence :
    ∀ v ∈ ctrVariants, ∀ key nonce d1 d2 : List Nat,
    key.length = v.keySize → nonce.length = v.blockSize →
    d1.length = d2.length →
    ∃ o1 o2, ctrCryptStd v key nonce d1 = Except.ok o1 ∧
      ctrCryptStd v key nonce d2 = Except.ok o2 ∧
      List.zipWith (· ^^^ ·) o1 o2 = List.zipWith (· ^^^ ·) d1 d2 := by
  intro v _ key nonce d1 d2 hk hn _
  refine ⟨applyKeystream (speckE v key) v.blockSize (beNum nonce) 0 d1,
    applyKeystream (speckE v key) v.blockSize (beNum nonce) 0 d2, ?_, ?_, ?_⟩
  · unfold ctrCryptStd
    rw [if_pos hk, if_pos hn]
  · unfold ctrCryptStd
    rw [if_pos hk, if_pos hn]
  · exact applyKeystream_xor _ _ _ d1 d2 0

/-- Witness for C9 at Speck32/64 with two concrete same-length inputs. -/
theorem c9_witness :
    ∃ o1 o2, ctrCryptStd speck32_64 (List.replicate 8 2) [0, 0, 0, 1]
        [10, 20, 30, 40, 50] = Except.ok o1 ∧
      ctrCryptStd speck32_64 (List.replicate 8 2) [0, 0, 0, 1]
        [11, 21, 31, 41, 51] = Except.ok o2 ∧
      List.zipWith (· ^^^ ·) o1 o2 =
        List.zipWith (· ^^^ ·) [10, 20, 30, 40, 50] [11, 21, 31, 41, 51] :=
  c9_ctr_keystream_independence speck32_64 (by decide) _ _ _ _
    (by decide) (by decide) (by decide)

theorem speckE_length (v : Variant) (key bs : List Nat) :
    (speckE v key bs).length = v.blockSize := speckEncryptBlock_length v _ bs

/-- Claim C8: `ctr_crypt` processes data in block-sized chunks — the `i`-th
output chunk is the `i`-th input chunk XORed with a prefix of
`encrypt_block` applied to the `i`-th counter block, where the counter is
the nonce read as a big-endian integer, is incremented by exactly one per
block, and wraps modulo `2 ^ (block-size-in-bits)`; a final partial chunk
uses only a prefix of its keystream block (`zipWith` truncates to the
chunk). -/
theorem c8_ctr_block_structure :
    ∀ v ∈ ctrVariants, ∀ key nonce data : List Nat,
    key.length = v.keySize → nonce.length = v.blockSize →
    ∃ out, ctrCryptStd v key nonce data = Except.ok out ∧
      out.length = data.length ∧
      ∀ i, (out.drop (v.blockSize * i)).take v.blockSize
        = List.zipWith (· ^^^ ·) ((data.drop (v.blockSize * i)).take v.blockSize)
            (speckE v key (beBytes v.blockSize ((beNum nonce + i) % 2 ^ (8 * v.blockSize)))) := by
  intro v hv key nonce data hk hn
  have hbs : 0 < v.blockSize := by
    have hall : ∀ u ∈ ctrVariants, 0 < u.blockSize := by decide
    exact hall v hv
  refine ⟨applyKeystream (speckE v key) v.blockSize (beNum nonce) 0 data, ?_, ?_, ?_⟩
  · unfold ctrCryptStd
    rw [if_pos hk, if_pos hn]
  · exact applyKeystream_length _ _ _ data 0
  · intro i
    have hol : (applyKeystream (speckE v key) v.blockSize (beNum nonce) 0 data).length
        = data.length := applyKeystream_length _ _ _ data 0
    have hEl : (speckE v key (beBytes v.blockSize
        ((beNum nonce + i) % 2 ^ (8 * v.blockSize)))).length = v.blockSize :=
      speckE_length v key _
    apply List.ext_getElem
    · rw [List.length_take, List.length_drop, List.length_zipWith, List.length_take,
        List.length_drop, hol, hEl]
      omega
    · intro r h1 h2
      have hr : r < v.blockSize := by
        rw [List.length_take] at h1; omega
      have hlen : v.blockSize * i + r < data.length := by
        rw [List.length_take, List.length_drop, hol] at h1; omega
      rw [List.getElem_take, List.getElem_drop, List.getElem_zipWith,
        List.getElem_take, List.getElem_drop]
      have hgd := applyKeystream_getD (speckE v key) v.blockSize (beNum nonce)
        data 0 (v.blockSize * i + r) hlen
      have hdiv : (v.blockSize * i + r) / v.blockSize = i := by
        rw [Nat.mul_add_div hbs, Nat.div_eq_of_lt hr, Nat.add_zero]
      have hmod : (v.blockSize * i + r) % v.blockSize = r := by
        rw [Nat.mul_add_mod, Nat.mod_eq_of_lt hr]
      have hksb : ksByte (speckE v key) v.blockSize (beNum nonce)
          (0 + (v.blockSize * i + r))
          = (speckE v key (beBytes v.blockSize
              ((beNum nonce + i) % 2 ^ (8 * v.blockSize)))).getD r 0 := by
        unfold ksByte
        rw [Nat.zero_add, hdiv, hmod]
      rw [hksb] at hgd
      have hob : v.blockSize * i + r
          < (applyKeystream (speckE v key) v.blockSize (beNum nonce) 0 data).length := by
        omega
      rw [← List.getD_eq_getElem _ 0 hob, ← List.getD_eq_getElem _ 0 hlen,
        ← List.getD_eq_getElem _ 0 (by omega : r < (speckE v key (beBytes v.blockSize
          ((beNum nonce + i) % 2 ^ (8 * v.blockSize)))).length)]
      exact hgd

/-- Witness for C8 at Speck32/64 (4-byte blocks) on a 10-byte input, which
exercises two full chunks and one partial chunk. -/
theorem c8_witness :
    ∃ out, ctrCryptStd speck32_64 (List.replicate 8 5) [255, 255, 255, 255]
        [1, 2, 3, 4, 5, 6, 7, 8, 9, 10] = Except.ok out ∧
      out.length = 10 ∧
      ∀ i, (out.drop (4 * i)).take 4
        = List.zipWith (· ^^^ ·) (([1, 2, 3, 4, 5, 6, 7, 8, 9, 10].drop (4 * i)).take 4)
            (speckE speck32_64 (List.replicate 8 5)
              (beBytes 4 ((beNum [255, 255, 255, 255] + i) % 2 ^ 32))) :=
  c8_ctr_block_structure speck32_64 (by decide) _ _ _ (by decide) (by decide)

/-! ### Poly1305.

Modelled from the spec: the `poly1305` crate is not in `src/`; the spec
fixes the tag layout (§3, §4.3) and the glossary names Poly1305, whose
standard definition is used here: the 16-byte `r` half of the key is
clamped, each 16-byte block (zero-padded by `update_padded`, with the
`2^128` marker bit) is absorbed into the accumulator modulo `2^130 - 5`,
and the final tag is the low 128 bits of `acc + s`, little-endian. -/

/-- The Poly1305 prime `2^130 - 5`. -/
def p1305 : Nat := 2 ^ 130 - 5

/-- The clamp mask applied to the `r` half of the key. -/
def clampMask : Nat := 0x0ffffffc0ffffffc0ffffffc0fffffff

/-- Clamped multiplier from the first 16 key bytes. -/
def polyR (key : List Nat) : Nat := leNum (key.take 16) &&& clampMask

/-- Final addend from the last 16 key bytes. -/
def polyS (key : List Nat) : Nat := leNum ((key.drop 16).take 16)

/-- Split into 16-byte chunks (`f` is fuel, at least the list length). -/
def chunks16Aux : Nat → List Nat → List (List Nat)
  | 0, _ => []
  | f + 1, l => if l = [] then [] else l.take 16 :: chunks16Aux f (l.drop 16)

/-- Split a byte string into its 16-byte chunks (last one possibly short). -/
def chunks16 (l : List Nat) : List (List Nat) := chunks16Aux l.length l

/-- Zero-pad to the next 16-byte boundary (identity on aligned input). -/
def pad16 (l : List Nat) : List Nat :=
  l ++ List.replicate ((16 - l.length % 16) % 16) 0

/-- Absorb a list of 16-byte blocks: each block contributes its value plus
the `2^128` marker, then the accumulator is multiplied by `r` mod `p1305`. -/
def polyBlocks (r acc : Nat) (blocks : List (List Nat)) : Nat :=
  blocks.foldl (fun acc blk => ((acc + leNum blk + 2 ^ 128) * r) % p1305) acc

/-- `update_padded`: zero-pad the data to a block boundary and absorb it. -/
def updatePadded (r acc : Nat) (data : List Nat) : Nat :=
  polyBlocks r acc (chunks16 (pad16 data))

/-- `finalize`: the low 128 bits of `acc + s`, as 16 little-endian bytes. -/
def polyFinalize (key : List Nat) (acc : Nat) : List Nat :=
  leBytes 16 ((acc + polyS key) % 2 ^ 128)

/-- The tag produced over (aad, ciphertext) with a given one-time key:
AAD then ciphertext via `update_padded`, then the two 8-byte little-endian
lengths. -/
def tagBody (polyKey aad ciphertext : List Nat) : List Nat :=
  polyFinalize polyKey
    (updatePadded (polyR polyKey)
      (updatePadded (polyR polyKey)
        (updatePadded (polyR polyKey) 0 aad) ciphertext)
      (leBytes 8 aad.length ++ leBytes 8 ciphertext.length))

/-- `compute_poly1305_tag` (lib.rs:180): `Poly1305::new_from_slice` demands
a 32-byte key (else `Error::BadArg`); then AAD, ciphertext and the length
block are absorbed with `update_padded` and the MAC is finalized. -/
def computePoly1305Tag (polyKey aad ciphertext : List Nat) : Except RtError (List Nat) :=
  if polyKey.length = 32 then .ok (tagBody polyKey aad ciphertext)
  else .error .badArg

/-! ### Constant-time comparison.

Modelled from the spec: `subtle::ConstantTimeEq` is not in `src/`; §9
prescribes the shape — branchless byte equality, bitwise accumulation
across all bytes, one final decision — and the slice comparison is false
outright when the lengths differ. -/

/-- Branchless byte equality: `x ^ y`, OR with its wrapping negation,
shift the sign bit down, flip.  Yields 1 when equal, 0 when not (for
bytes). -/
def byteCtEq (x y : Nat) : Nat :=
  (((x ^^^ y) ||| ((256 - (x ^^^ y) % 256) % 256)) >>> 7) ^^^ 1

/-- The accumulation loop: AND the per-byte results over every pair, with
no early exit. -/
def ctEqAcc : Nat → List (Nat × Nat) → Nat
  | acc, [] => acc
  | acc, p :: rest => ctEqAcc (acc &&& byteCtEq p.1 p.2) rest

/-- Slice `ct_eq`: false when the lengths differ, otherwise the loop's
final accumulator decides. -/
def ctEq (a b : List Nat) : Bool :=
  if a.length = b.length then ctEqAcc 1 (a.zip b) != 0 else false

/-- Ghost instrumentation of the `ctEqAcc` loop: the accumulator value
after each processed byte pair.  Its length is the number of byte
operations the loop performs. -/
def ctEqTrace : Nat → List (Nat × Nat) → List Nat
  | _, [] => []
  | acc, p :: rest => (acc &&& byteCtEq p.1 p.2) :: ctEqTrace (acc &&& byteCtEq p.1 p.2) rest

/-! ### AEAD composer (lib.rs:197-269) -/

/-- The one-time Poly1305 key: the first 32 keystream bytes, obtained in
the source by `apply_keystream` over a fresh 32-byte zero buffer. -/
def aeadSubkey (v : Variant) (key nonce : List Nat) : List Nat :=
  applyKeystream (speckE v key) v.blockSize (beNum nonce) 0 (List.replicate 32 0)

/-- `speck_poly1305_encrypt_impl` (lib.rs:197): key and nonce go through
`GenericArray::from_slice` (panic on mismatch); the first 32 keystream
bytes become the Poly1305 key, the plaintext is encrypted with the
advanced keystream (position 32), and the tag is computed over
(aad, ciphertext). -/
def speckPoly1305EncryptImpl (v : Variant) (key nonce plaintext aad : List Nat) :
    Except RtError (List Nat × List Nat) :=
  if key.length = v.keySize then
    if nonce.length = v.blockSize then
      let p1305Key := aeadSubkey v key nonce
      let ciphertext := applyKeystream (speckE v key) v.blockSize (beNum nonce) 32 plaintext
      (computePoly1305Tag p1305Key aad ciphertext).map (fun tag => (ciphertext, tag))
    else .error .panicked
  else .error .panicked

/-- `speck_poly1305_decrypt_impl` (lib.rs:232): derives the same subkey,
recomputes the expected tag, compares in constant time, and only on a
successful comparison decrypts (keystream position 32) and returns the
plaintext. -/
def speckPoly1305DecryptImpl (v : Variant) (key nonce ciphertext tag aad : List Nat) :
    Except RtError (List Nat) :=
  if key.length = v.keySize then
    if nonce.length = v.blockSize then
      let p1305Key := aeadSubkey v key nonce
      match computePoly1305Tag p1305Key aad ciphertext with
      | .error e => .error e
      | .ok expectedTag =>
        if ctEq expectedTag tag then
          .ok (applyKeystream (speckE v key) v.blockSize (beNum nonce) 32 ciphertext)
        else .error .authenticationFailed
    else .error .panicked
  else .error .panicked

/-- The tag `speck_poly1305_decrypt_impl` recomputes and compares against
the supplied one. -/
def aeadExpectedTag (v : Variant) (key nonce ciphertext aad : List Nat) : List Nat :=
  tagBody (aeadSubkey v key nonce) aad ciphertext

/-! ### Constant-time comparison lemmas -/

theorem byteCtEq_self (x : Nat) : byteCtEq x x = 1 := by
  unfold byteCtEq
  rw [Nat.xor_self]
  decide

set_option maxRecDepth 8192 in
theorem byteCtEq_ne {x y : Nat} (hx : x < 256) (hy : y < 256) (hne : x ≠ y) :
    byteCtEq x y = 0 := by
  have hx8 : x < 2 ^ 8 := lt_of_lt_of_le hx (by norm_num)
  have hy8 : y < 2 ^ 8 := lt_of_lt_of_le hy (by norm_num)
  have hd : x ^^^ y < 256 := by
    have h := Nat.xor_lt_two_pow hx8 hy8
    norm_num at h
    exact h
  have hdz : x ^^^ y ≠ 0 := fun h => hne (Nat.xor_eq_zero.mp h)
  have key : ∀ d : Nat, d < 256 → d ≠ 0 → ((d ||| (256 - d)) >>> 7) ^^^ 1 = 0 := by decide
  unfold byteCtEq
  rw [Nat.mod_eq_of_lt hd, Nat.mod_eq_of_lt (by omega : 256 - (x ^^^ y) < 256)]
  exact key _ hd hdz

theorem ctEqAcc_zero : ∀ ps : List (Nat × Nat), ctEqAcc 0 ps = 0 := by
  intro ps
  induction ps with
  | nil => rfl
  | cons p rest ih =>
    show ctEqAcc (0 &&& byteCtEq p.1 p.2) rest = 0
    rw [Nat.zero_and]
    exact ih

theorem ctEqAcc_one_iff : ∀ ps : List (Nat × Nat),
    (∀ p ∈ ps, p.1 < 256 ∧ p.2 < 256) →
    (ctEqAcc 1 ps ≠ 0 ↔ ∀ p ∈ ps, p.1 = p.2) := by
  intro ps
  induction ps with
  | nil => simp [ctEqAcc]
  | cons p rest ih =>
    intro hb
    have hp := hb p (List.mem_cons_self p rest)
    have hrest := fun q hq => hb q (List.mem_cons_of_mem p hq)
    by_cases he : p.1 = p.2
    · have e1 : byteCtEq p.1 p.2 = 1 := by rw [he]; exact byteCtEq_self p.2
      show ctEqAcc (1 &&& byteCtEq p.1 p.2) rest ≠ 0 ↔ _
      rw [e1]
      show ctEqAcc 1 rest ≠ 0 ↔ _
      rw [ih hrest, List.forall_mem_cons]
      simp [he]
    · have e0 : byteCtEq p.1 p.2 = 0 := byteCtEq_ne hp.1 hp.2 he
      show ctEqAcc (1 &&& byteCtEq p.1 p.2) rest ≠ 0 ↔ _
      rw [e0]
      show ctEqAcc 0 rest ≠ 0 ↔ _
      rw [ctEqAcc_zero]
      simp only [ne_eq, not_true_eq_false, false_iff, List.forall_mem_cons, not_and]
      intro hc
      exact absurd hc he

theorem zip_forall_eq : ∀ (a b : List Nat), a.length = b.length →
    ((∀ p ∈ a.zip b, p.1 = p.2) ↔ a = b) := by
  intro a
  induction a with
  | nil =>
    intro b h
    have : b = [] := List.length_eq_zero.mp (by simpa using h.symm)
    subst this
    simp
  | cons x a2 ih =>
    intro b h
    match b with
    | [] => simp at h
    | y :: b2 =>
      have h2 : a2.length = b2.length := by simpa using h
      rw [List.zip_cons_cons, List.forall_mem_cons]
      simp only [List.cons.injEq]
      rw [ih b2 h2]

theorem ctEq_iff {a b : List Nat} (ha : IsBytes a) (hb : IsBytes b)
    (hl : a.length = b.length) : (ctEq a b = true ↔ a = b) := by
  unfold ctEq
  rw [if_pos hl]
  have hmem : ∀ p ∈ a.zip b, p.1 < 256 ∧ p.2 < 256 := fun p hp =>
    ⟨ha _ (List.of_mem_zip hp).1, hb _ (List.of_mem_zip hp).2⟩
  rw [bne_iff_ne, ctEqAcc_one_iff _ hmem, zip_forall_eq a b hl]

theorem ctEq_refl (t : List Nat) : ctEq t t = true := by
  unfold ctEq
  rw [if_pos rfl]
  have h : ∀ t2 : List Nat, ctEqAcc 1 (t2.zip t2) = 1 := by
    intro t2
    induction t2 with
    | nil => rfl
    | cons x r ih =>
      show ctEqAcc (1 &&& byteCtEq x x) (r.zip r) = 1
      rw [byteCtEq_self x]
      exact ih
  rw [h t]
  rfl

theorem ctEq_of_length_ne {a b : List Nat} (h : a.length ≠ b.length) :
    ctEq a b = false := by
  unfold ctEq
  rw [if_neg h]

theorem ctEqTrace_length : ∀ (ps : List (Nat × Nat)) (acc : Nat),
    (ctEqTrace acc ps).length = ps.length := by
  intro ps
  induction ps with
  | nil => intro acc; rfl
  | cons p rest ih =>
    intro acc
    simp only [ctEqTrace, List.length_cons, ih]

theorem ctEqAcc_eq_trace_last : ∀ (ps : List (Nat × Nat)) (acc : Nat),
    ctEqAcc acc ps = (ctEqTrace acc ps).getLastD acc := by
  intro ps
  induction ps with
  | nil => intro acc; rfl
  | cons p rest ih =>
    intro acc
    show ctEqAcc (acc &&& byteCtEq p.1 p.2) rest
      = ((acc &&& byteCtEq p.1 p.2) :: ctEqTrace (acc &&& byteCtEq p.1 p.2) rest).getLastD acc
    rw [List.getLastD_cons]
    exact ih _

/-- Claim C6: the tag comparison is constant-time in the embedding's cost
model — the loop processes one byte pair per step with no early exit, so
the number of byte operations (the length of the instrumented accumulator
trace) depends only on the two lengths, never on the byte values or the
position of the first mismatch; the boolean decision reads only the final
accumulator, which equals the last trace entry. -/
theorem c6_constant_time_compare :
    ∀ a b a2 b2 : List Nat, a.length = a2.length → b.length = b2.length →
    (ctEqTrace 1 (a.zip b)).length = (ctEqTrace 1 (a2.zip b2)).length ∧
    (a.length = b.length → (ctEqTrace 1 (a.zip b)).length = a.length) ∧
    ctEqAcc 1 (a.zip b) = (ctEqTrace 1 (a.zip b)).getLastD 1 := by
  intro a b a2 b2 ha hb
  refine ⟨?_, ?_, ctEqAcc_eq_trace_last _ 1⟩
  · rw [ctEqTrace_length, ctEqTrace_length, List.length_zip, List.length_zip, ha, hb]
  · intro he
    rw [ctEqTrace_length, List.length_zip]
    omega

/-- Witness for C6: a matching pair and a mismatching pair of the same
lengths take the same number of loop steps. -/
theorem c6_witness :
    (ctEqTrace 1 ([1, 2, 3].zip [1, 2, 3])).length
        = (ctEqTrace 1 ([1, 2, 3].zip [9, 2, 3])).length ∧
      ((3 : Nat) = 3 → (ctEqTrace 1 ([1, 2, 3].zip [1, 2, 3])).length = 3) ∧
      ctEqAcc 1 ([1, 2, 3].zip [1, 2, 3])
        = (ctEqTrace 1 ([1, 2, 3].zip [1, 2, 3])).getLastD 1 := by
  exact c6_constant_time_compare [1, 2, 3] [1, 2, 3] [1, 2, 3] [9, 2, 3]
    (by decide) (by decide)

/-! ### AEAD theorems -/

theorem aeadSubkey_length (v : Variant) (key nonce : List Nat) :
    (aeadSubkey v key nonce).length = 32 := by
  unfold aeadSubkey
  rw [applyKeystream_length, List.length_replicate]

theorem aeadExpectedTag_length (v : Variant) (key nonce ct aad : List Nat) :
    (aeadExpectedTag v key nonce ct aad).length = 16 := by
  unfold aeadExpectedTag tagBody polyFinalize
  exact leBytes_length _ _

theorem aeadExpectedTag_isBytes (v : Variant) (key nonce ct aad : List Nat) :
    IsBytes (aeadExpectedTag v key nonce ct aad) := by
  unfold aeadExpectedTag tagBody polyFinalize
  exact leBytes_isBytes _ _

theorem decryptImpl_eq {v : Variant} {key nonce ct tag aad : List Nat}
    (hk : key.length = v.keySize) (hn : nonce.length = v.blockSize) :
    speckPoly1305DecryptImpl v key nonce ct tag aad =
      if ctEq (aeadExpectedTag v key nonce ct aad) tag then
        Except.ok (applyKeystream (speckE v key) v.blockSize (beNum nonce) 32 ct)
      else Except.error RtError.authenticationFailed := by
  unfold speckPoly1305DecryptImpl
  rw [if_pos hk, if_pos hn]
  have hc : computePoly1305Tag (aeadSubkey v key nonce) aad ct
      = Except.ok (tagBody (aeadSubkey v key nonce) aad ct) := by
    unfold computePoly1305Tag
    rw [if_pos (aeadSubkey_length v key nonce)]
  simp only [hc]
  rfl

theorem encryptImpl_eq {v : Variant} {key nonce pt aad : List Nat}
    (hk : key.length = v.keySize) (hn : nonce.length = v.blockSize) :
    speckPoly1305EncryptImpl v key nonce pt aad =
      Except.ok (applyKeystream (speckE v key) v.blockSize (beNum nonce) 32 pt,
        tagBody (aeadSubkey v key nonce) aad
          (applyKeystream (speckE v key) v.blockSize (beNum nonce) 32 pt)) := by
  unfold speckPoly1305EncryptImpl
  rw [if_pos hk, if_pos hn]
  have hc : computePoly1305Tag (aeadSubkey v key nonce) aad
      (applyKeystream (speckE v key) v.blockSize (beNum nonce) 32 pt)
      = Except.ok (tagBody (aeadSubkey v key nonce) aad
        (applyKeystream (speckE v key) v.blockSize (beNum nonce) 32 pt)) := by
    unfold computePoly1305Tag
    rw [if_pos (aeadSubkey_length v key nonce)]
  simp only [hc]
  rfl

/-- Claim C1: AEAD round-trip — for every supported variant and valid key
and nonce lengths, `aead_open` on the (ciphertext, tag) pair produced by
`aead_seal` with the same key, nonce and AAD succeeds and returns the
original plaintext. -/
theorem c1_aead_roundtrip :
    ∀ v ∈ ctrVariants, ∀ key nonce pt aad : List Nat,
    key.length = v.keySize → nonce.length = v.blockSize →
    ∃ ct tag, speckPoly1305EncryptImpl v key nonce pt aad = Except.ok (ct, tag) ∧
      speckPoly1305DecryptImpl v key nonce ct tag aad = Except.ok pt := by
  intro v _ key nonce pt aad hk hn
  refine ⟨applyKeystream (speckE v key) v.blockSize (beNum nonce) 32 pt,
    tagBody (aeadSubkey v key nonce) aad
      (applyKeystream (speckE v key) v.blockSize (beNum nonce) 32 pt),
    encryptImpl_eq hk hn, ?_⟩
  rw [decryptImpl_eq hk hn]
  have he : aeadExpectedTag v key nonce
      (applyKeystream (speckE v key) v.blockSize (beNum nonce) 32 pt) aad
      = tagBody (aeadSubkey v key nonce) aad
        (applyKeystream (speckE v key) v.blockSize (beNum nonce) 32 pt) := rfl
  rw [he, if_pos (ctEq_refl _), applyKeystream_involutive]

/-- Witness for C1 at Speck64/128 with the spec's §8 example shape: zero
key, zero nonce, 8-byte plaintext, empty AAD. -/
theorem c1_witness :
    ∃ ct tag, speckPoly1305EncryptImpl speck64_128 (List.replicate 16 0)
        (List.replicate 8 0) [65, 66, 67, 68, 69, 70, 71, 72] []
        = Except.ok (ct, tag) ∧
      speckPoly1305DecryptImpl speck64_128 (List.replicate 16 0)
        (List.replicate 8 0) ct tag [] =
        Except.ok [65, 66, 67, 68, 69, 70, 71, 72] :=
  c1_aead_roundtrip speck64_128 (by decide) _ _ _ _ (by decide) (by decide)

/-- Claim C2: `aead_open` fails with `AuthenticationFailed` exactly when
the recomputed tag differs from the supplied one, returning no plaintext;
only when the tags agree does it return the CTR decryption of the
ciphertext. -/
theorem c2_auth_gate :
    ∀ v ∈ ctrVariants, ∀ key nonce ct tag aad : List Nat,
    key.length = v.keySize → nonce.length = v.blockSize → IsBytes tag →
    (speckPoly1305DecryptImpl v key nonce ct tag aad
        = Except.error RtError.authenticationFailed
      ↔ aeadExpectedTag v key nonce ct aad ≠ tag) ∧
    (aeadExpectedTag v key nonce ct aad = tag →
      speckPoly1305DecryptImpl v key nonce ct tag aad
        = Except.ok (applyKeystream (speckE v key) v.blockSize (beNum nonce) 32 ct)) := by
  intro v _ key nonce ct tag aad hk hn htb
  rw [decryptImpl_eq hk hn]
  by_cases heq : aeadExpectedTag v key nonce ct aad = tag
  · rw [if_pos (heq ▸ ctEq_refl _)]
    constructor
    · constructor
      · intro h
        exact absurd h (by simp)
      · intro h
        exact absurd heq h
    · intro _
      rfl
  · have hfalse : ctEq (aeadExpectedTag v key nonce ct aad) tag = false := by
      by_cases hlen : (aeadExpectedTag v key nonce ct aad).length = tag.length
      · have hiff := ctEq_iff (aeadExpectedTag_isBytes v key nonce ct aad) htb hlen
        rcases Bool.eq_false_or_eq_true (ctEq (aeadExpectedTag v key nonce ct aad) tag)
          with ht | hf
        · exact absurd (hiff.mp ht) heq
        · exact hf
      · exact ctEq_of_length_ne hlen
    rw [hfalse]
    constructor
    · constructor
      · intro _
        exact heq
      · intro _
        simp
    · intro h
      exact absurd h heq

/-- Witness for C2 at Speck32/64 with a concrete all-zero 16-byte tag. -/
theorem c2_witness :
    (speckPoly1305DecryptImpl speck32_64 (List.replicate 8 0) [0, 0, 0, 0]
        [1, 2, 3] (List.replicate 16 0) []
        = Except.error RtError.authenticationFailed
      ↔ aeadExpectedTag speck32_64 (List.replicate 8 0) [0, 0, 0, 0] [1, 2, 3] []
        ≠ List.replicate 16 0) ∧
    (aeadExpectedTag speck32_64 (List.replicate 8 0) [0, 0, 0, 0] [1, 2, 3] []
        = List.replicate 16 0 →
      speckPoly1305DecryptImpl speck32_64 (List.replicate 8 0) [0, 0, 0, 0]
        [1, 2, 3] (List.replicate 16 0) []
        = Except.ok (applyKeystream (speckE speck32_64 (List.replicate 8 0)) 4
            (beNum [0, 0, 0, 0]) 32 [1, 2, 3])) :=
  c2_auth_gate speck32_64 (by decide) _ _ _ _ _ (by decide) (by decide) (by decide)

/-- Claim C10: a tag argument whose length is not 16 makes `aead_open`
fail with `AuthenticationFailed` (the constant-time comparison of strings
of unequal length is always false); no separate length-validation error
exists for the tag. -/
theorem c10_short_tag_auth_fails :
    ∀ v ∈ ctrVariants, ∀ key nonce ct tag aad : List Nat,
    key.length = v.keySize → nonce.length = v.blockSize → tag.length ≠ 16 →
    speckPoly1305DecryptImpl v key nonce ct tag aad
      = Except.error RtError.authenticationFailed := by
  intro v _ key nonce ct tag aad hk hn ht
  rw [decryptImpl_eq hk hn]
  have hfalse : ctEq (aeadExpectedTag v key nonce ct aad) tag = false :=
    ctEq_of_length_ne (by rw [aeadExpectedTag_length]; omega)
  rw [hfalse]
  simp

/-- Witness for C10: a 15-byte tag at Speck32/64. -/
theorem c10_witness :
    speckPoly1305DecryptImpl speck32_64 (List.replicate 8 0) [0, 0, 0, 0]
      [1, 2, 3] (List.replicate 15 0) []
      = Except.error RtError.authenticationFailed :=
  c10_short_tag_auth_fails speck32_64 (by decide) _ _ _ _ _
    (by decide) (by decide) (by decide)

/-! ### Seal refinement (claim C5) -/

/-- Keystream bytes `start, …, start + len - 1` read off directly. -/
def ksBytes (E : List Nat → List Nat) (bs n0 start len : Nat) : List Nat :=
  (List.range len).map (fun i => ksByte E bs n0 (start + i))

/-- Poly1305 of a whole (block-aligned) message under a 32-byte one-time
key, as the spec words it: absorb the message's 16-byte blocks, then add
`s` and truncate to 128 bits. -/
def poly1305Mac (key msg : List Nat) : List Nat :=
  polyFinalize key (polyBlocks (polyR key) 0 (chunks16 msg))

/-- `aead_seal` as the spec words it: the one-time Poly1305 key is exactly
keystream bytes 0–31, the ciphertext is the plaintext XORed with keystream
bytes starting at offset 32 (the subkey bytes are never reused), and the
tag is Poly1305 over `pad16(aad) ∥ pad16(ciphertext) ∥ le64(|aad|) ∥
le64(|ciphertext|)`. -/
def specSeal (v : Variant) (key nonce pt aad : List Nat) : List Nat × List Nat :=
  let n0 := beNum nonce
  let subkey := ksBytes (speckE v key) v.blockSize n0 0 32
  let ct := List.zipWith (· ^^^ ·) pt (ksBytes (speckE v key) v.blockSize n0 32 pt.length)
  let msg := pad16 aad ++ pad16 ct ++ (leBytes 8 aad.length ++ leBytes 8 ct.length)
  (ct, poly1305Mac subkey msg)

theorem ksBytes_succ (E : List Nat → List Nat) (bs n0 pos n : Nat) :
    ksBytes E bs n0 pos (n + 1)
      = ksByte E bs n0 pos :: ksBytes E bs n0 (pos + 1) n := by
  unfold ksBytes
  rw [List.range_succ_eq_map, List.map_cons, List.map_map, Nat.add_zero]
  congr 1
  apply List.map_congr_left
  intro i _
  show ksByte E bs n0 (pos + (i + 1)) = ksByte E bs n0 (pos + 1 + i)
  congr 1
  omega

theorem ksBytes_length (E : List Nat → List Nat) (bs n0 start len : Nat) :
    (ksBytes E bs n0 start len).length = len := by
  unfold ksBytes
  rw [List.length_map, List.length_range]

theorem applyKeystream_replicate_zero (E : List Nat → List Nat) (bs n0 : Nat) :
    ∀ (n pos : Nat),
    applyKeystream E bs n0 pos (List.replicate n 0) = ksBytes E bs n0 pos n := by
  intro n
  induction n with
  | zero => intro pos; rfl
  | succ n ih =>
    intro pos
    rw [List.replicate_succ]
    show (0 ^^^ ksByte E bs n0 pos) :: applyKeystream E bs n0 (pos + 1) (List.replicate n 0)
      = ksBytes E bs n0 pos (n + 1)
    rw [Nat.zero_xor, ih (pos + 1), ksBytes_succ]

theorem applyKeystream_eq_zip (E : List Nat → List Nat) (bs n0 : Nat) :
    ∀ (data : List Nat) (pos : Nat),
    applyKeystream E bs n0 pos data
      = List.zipWith (· ^^^ ·) data (ksBytes E bs n0 pos data.length) := by
  intro data
  induction data with
  | nil => intro pos; rfl
  | cons u rest ih =>
    intro pos
    rw [List.length_cons, ksBytes_succ]
    show (u ^^^ ksByte E bs n0 pos) :: applyKeystream E bs n0 (pos + 1) rest = _
    rw [List.zipWith_cons_cons, ih (pos + 1)]

theorem chunks16Aux_nil : ∀ f : Nat, chunks16Aux f [] = [] := by
  intro f
  cases f with
  | zero => rfl
  | succ f => simp [chunks16Aux]

theorem chunks16Aux_congr : ∀ (f1 f2 : Nat) (l : List Nat),
    l.length ≤ f1 → l.length ≤ f2 → chunks16Aux f1 l = chunks16Aux f2 l := by
  intro f1
  induction f1 with
  | zero =>
    intro f2 l h1 _
    have hl : l = [] := List.length_eq_zero.mp (by omega)
    subst hl
    rw [chunks16Aux_nil, chunks16Aux_nil]
  | succ f ih =>
    intro f2 l h1 h2
    by_cases hl : l = []
    · subst hl
      rw [chunks16Aux_nil, chunks16Aux_nil]
    · have hpos : 0 < l.length := List.length_pos.mpr hl
      match f2 with
      | 0 => omega
      | f2 + 1 =>
        simp only [chunks16Aux, if_neg hl]
        congr 1
        apply ih
        · rw [List.length_drop]; omega
        · rw [List.length_drop]; omega

theorem chunks16_cons (l : List Nat) (hl : l ≠ []) :
    chunks16 l = l.take 16 :: chunks16 (l.drop 16) := by
  have hpos : 0 < l.length := List.length_pos.mpr hl
  obtain ⟨n, hn⟩ : ∃ n, l.length = n + 1 := ⟨l.length - 1, by omega⟩
  unfold chunks16
  rw [hn]
  simp only [chunks16Aux, if_neg hl]
  congr 1
  apply chunks16Aux_congr
  · rw [List.length_drop]; omega
  · exact le_refl _

theorem chunks16_append : ∀ (k : Nat) (m1 m2 : List Nat), m1.length = 16 * k →
    chunks16 (m1 ++ m2) = chunks16 m1 ++ chunks16 m2 := by
  intro k
  induction k with
  | zero =>
    intro m1 m2 h
    have hm : m1 = [] := List.length_eq_zero.mp (by omega)
    subst hm
    show chunks16 m2 = chunks16 [] ++ chunks16 m2
    unfold chunks16
    rw [chunks16Aux_nil]
    rfl
  | succ k ih =>
    intro m1 m2 h
    have h16 : 16 ≤ m1.length := by omega
    have hm1 : m1 ≠ [] := by
      intro e
      rw [e] at h
      simp at h
    have happ : m1 ++ m2 ≠ [] := fun e => hm1 (List.append_eq_nil.mp e).1
    rw [chunks16_cons _ happ, chunks16_cons _ hm1]
    rw [List.take_append_of_le_length h16, List.drop_append_of_le_length h16]
    rw [ih (m1.drop 16) m2 (by rw [List.length_drop]; omega)]
    rfl

theorem pad16_length_mod (l : List Nat) : (pad16 l).length % 16 = 0 := by
  unfold pad16
  rw [List.length_append, List.length_replicate]
  omega

theorem pad16_self {l : List Nat} (h : l.length % 16 = 0) : pad16 l = l := by
  unfold pad16
  rw [h]
  simp

theorem tagBody_eq_mac (polyKey aad ct : List Nat) :
    tagBody polyKey aad ct
      = poly1305Mac polyKey
          (pad16 aad ++ pad16 ct ++ (leBytes 8 aad.length ++ leBytes 8 ct.length)) := by
  unfold tagBody poly1305Mac updatePadded
  obtain ⟨k1, hk1⟩ : ∃ k, (pad16 aad).length = 16 * k :=
    ⟨(pad16 aad).length / 16, by have := pad16_length_mod aad; omega⟩
  obtain ⟨k2, hk2⟩ : ∃ k, (pad16 ct).length = 16 * k :=
    ⟨(pad16 ct).length / 16, by have := pad16_length_mod ct; omega⟩
  have hx : (leBytes 8 aad.length ++ leBytes 8 ct.length).length % 16 = 0 := by
    rw [List.length_append, leBytes_length, leBytes_length]
  have h12 : (pad16 aad ++ pad16 ct).length = 16 * (k1 + k2) := by
    rw [List.length_append]
    omega
  rw [pad16_self hx, chunks16_append (k1 + k2) _ _ h12, chunks16_append k1 _ _ hk1]
  unfold polyBlocks
  rw [List.foldl_append, List.foldl_append]

/-- Claim C5: `aead_seal` consumes exactly keystream bytes 0–31 as the
one-time Poly1305 key, encrypts the plaintext with keystream starting at
byte 32 (no overlap with the subkey bytes), and returns a 16-byte tag
equal to Poly1305 over the padded-AAD ∥ padded-ciphertext ∥ little-endian
length encoding — i.e. the implementation equals the spec-worded
`specSeal`, whose ciphertext has the plaintext's length and whose tag has
length 16. -/
theorem c5_seal_structure :
    ∀ v ∈ ctrVariants, ∀ key nonce pt aad : List Nat,
    key.length = v.keySize → nonce.length = v.blockSize →
    speckPoly1305EncryptImpl v key nonce pt aad
        = Except.ok (specSeal v key nonce pt aad) ∧
      (specSeal v key nonce pt aad).1.length = pt.length ∧
      (specSeal v key nonce pt aad).2.length = 16 := by
  intro v _ key nonce pt aad hk hn
  have hsub : aeadSubkey v key nonce
      = ksBytes (speckE v key) v.blockSize (beNum nonce) 0 32 := by
    unfold aeadSubkey
    exact applyKeystream_replicate_zero _ _ _ 32 0
  have hct : applyKeystream (speckE v key) v.blockSize (beNum nonce) 32 pt
      = List.zipWith (· ^^^ ·) pt
          (ksBytes (speckE v key) v.blockSize (beNum nonce) 32 pt.length) :=
    applyKeystream_eq_zip _ _ _ pt 32
  refine ⟨?_, ?_, ?_⟩
  · rw [encryptImpl_eq hk hn, tagBody_eq_mac, hsub, hct]
    rfl
  · show (List.zipWith (· ^^^ ·) pt _).length = pt.length
    rw [List.length_zipWith, ksBytes_length]
    omega
  · show (poly1305Mac _ _).length = 16
    unfold poly1305Mac polyFinalize
    exact leBytes_length _ _

/-- Witness for C5 at Speck128/128 with concrete inputs. -/
theorem c5_witness :
    speckPoly1305EncryptImpl speck128_128 (List.replicate 16 1) (List.replicate 16 2)
        [1, 2, 3] [9]
        = Except.ok (specSeal speck128_128 (List.replicate 16 1) (List.replicate 16 2)
          [1, 2, 3] [9]) ∧
      (specSeal speck128_128 (List.replicate 16 1) (List.replicate 16 2)
        [1, 2, 3] [9]).1.length = 3 ∧
      (specSeal speck128_128 (List.replicate 16 1) (List.replicate 16 2)
        [1, 2, 3] [9]).2.length = 16 :=
  c5_seal_structure speck128_128 (by decide) _ _ _ _ (by decide) (by decide)

/-! ### Length validation (claim C4).

Only `init` validates with a typed error: `new_from_slice` returns a
`Result` that the source maps to `Error::BadArg`.  Every other surface
call feeds the raw slice into `GenericArray::from_slice` /
`from_mut_slice`, whose contract on a length mismatch is a panic — the
call crashes instead of returning `InvalidBlockLength` /
`InvalidNonceLength`, which in fact exist nowhere in the source. -/

/-- Counterexample to claim C4: a 3-byte block handed to the Speck32/64
`encrypt` surface does not come back as a typed invalid-length failure —
it reaches `GenericArray::from_mut_slice` and panics (modelled by
`RtError.panicked`, distinct from the typed `badArg`). -/
theorem c4_counterexample :
    encrypt speck32_64 (speckInit speck32_64 (List.replicate 8 0)) [0, 0, 0]
        = Except.error RtError.panicked ∧
      RtError.panicked ≠ RtError.badArg :=
  ⟨rfl, by decide⟩

/-- Claim C4 (amended): a wrong-length key at `init` yields the typed
failure `BadArg` (never truncation or padding); but a wrong-length block
at `encrypt`/`decrypt`, and a wrong-length key or nonce at `ctr_crypt` or
either AEAD entry point, make the call panic rather than return a typed
error. -/
theorem c4_amended_length_validation :
    (∀ v ∈ speckVariants, ∀ key : List Nat, key.length ≠ v.keySize →
      init v key = Except.error RtError.badArg) ∧
    (∀ v ∈ speckVariants, ∀ ks data : List Nat, data.length ≠ v.blockSize →
      encrypt v ks data = Except.error RtError.panicked ∧
      decrypt v ks data = Except.error RtError.panicked) ∧
    (∀ v ∈ ctrVariants, ∀ key nonce data : List Nat,
      key.length ≠ v.keySize ∨ nonce.length ≠ v.blockSize →
      ctrCryptStd v key nonce data = Except.error RtError.panicked) ∧
    (∀ v ∈ ctrVariants, ∀ key nonce pt aad : List Nat,
      key.length ≠ v.keySize ∨ nonce.length ≠ v.blockSize →
      speckPoly1305EncryptImpl v key nonce pt aad = Except.error RtError.panicked) ∧
    (∀ v ∈ ctrVariants, ∀ key nonce ct tag aad : List Nat,
      key.length ≠ v.keySize ∨ nonce.length ≠ v.blockSize →
      speckPoly1305DecryptImpl v key nonce ct tag aad
        = Except.error RtError.panicked) := by
  refine ⟨?_, ?_, ?_, ?_, ?_⟩
  · intro v _ key h
    unfold init
    rw [if_neg h]
  · intro v _ ks data h
    constructor
    · unfold encrypt
      rw [if_neg h]
    · unfold decrypt
      rw [if_neg h]
  · intro v _ key nonce data h
    unfold ctrCryptStd
    rcases h with h | h
    · rw [if_neg h]
    · by_cases hk : key.length = v.keySize
      · rw [if_pos hk, if_neg h]
      · rw [if_neg hk]
  · intro v _ key nonce pt aad h
    unfold speckPoly1305EncryptImpl
    rcases h with h | h
    · rw [if_neg h]
    · by_cases hk : key.length = v.keySize
      · rw [if_pos hk, if_neg h]
      · rw [if_neg hk]
  · intro v _ key nonce ct tag aad h
    unfold speckPoly1305DecryptImpl
    rcases h with h | h
    · rw [if_neg h]
    · by_cases hk : key.length = v.keySize
      · rw [if_pos hk, if_neg h]
      · rw [if_neg hk]

/-- Witness for the amended C4 across the whole surface at concrete
wrong-length inputs. -/
theorem c4_witness :
    init speck32_64 [1, 2, 3] = Except.error RtError.badArg ∧
    encrypt speck32_64 [] [0, 0, 0] = Except.error RtError.panicked ∧
    decrypt speck32_64 [] [0, 0, 0] = Except.error RtError.panicked ∧
    ctrCryptStd speck32_64 [1] [0, 0, 0, 0] [] = Except.error RtError.panicked ∧
    speckPoly1305EncryptImpl speck32_64 (List.replicate 8 0) [0] [] []
      = Except.error RtError.panicked ∧
    speckPoly1305DecryptImpl speck32_64 [9] [0, 0, 0, 0] [] [] []
      = Except.error RtError.panicked :=
  ⟨c4_amended_length_validation.1 speck32_64 (by decide) _ (by decide),
   (c4_amended_length_validation.2.1 speck32_64 (by decide) [] _ (by decide)).1,
   (c4_amended_length_validation.2.1 speck32_64 (by decide) [] _ (by decide)).2,
   c4_amended_length_validation.2.2.1 speck32_64 (by decide) _ _ _ (Or.inl (by decide)),
   c4_amended_length_validation.2.2.2.1 speck32_64 (by decide) _ _ _ _
     (Or.inr (by decide)),
   c4_amended_length_validation.2.2.2.2 speck32_64 (by decide) _ _ _ _ _
     (Or.inl (by decide))⟩

end SpeckEx
